import Mathlib

set_option maxRecDepth 100000

/-
Shallow embedding of the batched-gemm scheduling core of the asgard
discontinuous-Galerkin PDE engine, translated from src/src/tensors.hpp,
src/src/quadrature.cpp and src/src/pde.hpp, together with proofs of the
specification claims about it.

The scheduling functions (`compute_batch_size`, `compute_dimensions`,
`kron_base`, `kronmult_to_batch_sets`, `allocate_batches`, `build_batches`)
are pure index computations in the source; they are translated directly,
with the trace of `batch::assign_entry` calls made explicit as a list of
`assignEntry` records (which batch set, which operand list, which slot,
which buffer the assigned view points into, and the view's shape).
-/

/-- Record mirroring `matrix_size_set` from tensors.hpp: the nrows/ncols of
the `a` and `b` operands of a gemm. -/
structure matrix_size_set where
  rows_a : ℕ
  cols_a : ℕ
  rows_b : ℕ
  cols_b : ℕ
deriving DecidableEq

/-- Translation of `compute_batch_size` (tensors.hpp): how many gemms a single
call to `kronmult_to_batch_sets` adds at a given PDE dimension.  Dimension `0`
and dimension `num_dims - 1` get one gemm; each intermediate dimension gets
`degree ^ (num_dims - dimension - 1)` gemms. -/
def compute_batch_size (degree num_dims dimension : ℕ) : ℕ :=
  if dimension = 0 ∨ dimension = num_dims - 1 then 1
  else degree ^ (num_dims - dimension - 1)

/-- Translation of `compute_dimensions` (tensors.hpp): operand shapes for the
gemms at a given dimension.  Dimension `0` gemms are
`(degree, degree) x (degree, degree^(num_dims-1))`; higher dimensions are
`(degree^dimension, degree) x (degree, degree)`. -/
def compute_dimensions (degree num_dims dimension : ℕ) : matrix_size_set :=
  if dimension = 0 then
    ⟨degree, degree, degree, degree ^ (num_dims - 1)⟩
  else
    ⟨degree ^ dimension, degree, degree, degree⟩

/-- Identifies which buffer a view assigned into a batch points at:
an operator window `A[dim]` from the operator view list, the input vector
`x`, the output vector `y`, or a window into intermediate workspace
`work[which]` starting at element `offset`. -/
inductive opSrc where
  | opView (dim : ℕ)
  | xInput
  | yOutput
  | workView (which offset : ℕ)
deriving DecidableEq

/-- One `batch::assign_entry` call recorded by the scheduling model:
`dim` selects the batch operand set (one per PDE dimension), `operand`
the list within it (0 = a, 1 = b, 2 = c), `slot` the position written,
`src` the buffer the assigned view points into, and `nrows`/`ncols`
the shape of the assigned view. -/
structure assignEntry where
  dim : ℕ
  operand : ℕ
  slot : ℕ
  src : opSrc
  nrows : ℕ
  ncols : ℕ
deriving DecidableEq

/-- Translation of `kron_base` (tensors.hpp): enqueue the single gemm for
dimension 0 of the PDE at position `batch_offset`.  `ytarget` is the buffer
the output view points into: `work[0]` for multidimensional PDEs, the output
vector `y` itself when `num_dims == 1`. -/
def kron_base (degree num_dims batch_offset : ℕ) (ytarget : opSrc) :
    List assignEntry :=
  let sizes := compute_dimensions degree num_dims 0
  [⟨0, 0, batch_offset, opSrc.opView 0, degree, degree⟩,
   ⟨0, 1, batch_offset, opSrc.xInput, sizes.rows_b, sizes.cols_b⟩,
   ⟨0, 2, batch_offset, ytarget, sizes.rows_a, sizes.cols_b⟩]

/-- The three `assign_entry` calls made for one gemm of an intermediate
dimension in the loop body of `kronmult_to_batch_sets` (tensors.hpp):
input view into `work[(dimension-1) % 2]`, operator view `A[dimension]`,
output view into `work[dimension % 2]`. -/
def kron_mid_entry (degree num_dims batch_offset dimension gemm : ℕ) :
    List assignEntry :=
  let sizes := compute_dimensions degree num_dims dimension
  let num_gemms := compute_batch_size degree num_dims dimension
  let offset := sizes.rows_a * sizes.cols_a
  [⟨dimension, 0, batch_offset * num_gemms + gemm,
      opSrc.workView ((dimension - 1) % 2) (offset * gemm),
      sizes.rows_a, sizes.cols_a⟩,
   ⟨dimension, 1, batch_offset * num_gemms + gemm,
      opSrc.opView dimension, degree, degree⟩,
   ⟨dimension, 2, batch_offset * num_gemms + gemm,
      opSrc.workView (dimension % 2) (offset * gemm),
      sizes.rows_a, sizes.cols_a⟩]

/-- The loop of `kronmult_to_batch_sets` over intermediate dimensions
`1 .. num_dims - 2`, each contributing `compute_batch_size` gemms. -/
def kron_mid (degree num_dims batch_offset : ℕ) : List assignEntry :=
  (List.range (num_dims - 2)).flatMap fun i =>
    (List.range (compute_batch_size degree num_dims (i + 1))).flatMap fun g =>
      kron_mid_entry degree num_dims batch_offset (i + 1) g

/-- The single gemm `kronmult_to_batch_sets` enqueues for the highest
dimension `num_dims - 1`: input view into `work[num_dims % 2]`, operator
view `A[num_dims - 1]`, output view into the output vector `y`. -/
def kron_last (degree num_dims batch_offset : ℕ) : List assignEntry :=
  let sizes := compute_dimensions degree num_dims (num_dims - 1)
  [⟨num_dims - 1, 0, batch_offset, opSrc.workView (num_dims % 2) 0,
      sizes.rows_a, sizes.cols_a⟩,
   ⟨num_dims - 1, 1, batch_offset, opSrc.opView (num_dims - 1),
      degree, degree⟩,
   ⟨num_dims - 1, 2, batch_offset, opSrc.yOutput,
      sizes.rows_a, sizes.cols_a⟩]

/-- Translation of `kronmult_to_batch_sets` (tensors.hpp): the list of
`assign_entry` calls one invocation makes, in program order.  For a
one-dimensional PDE only the base gemm is enqueued, writing directly to `y`;
otherwise the base gemm writes into `work[0]`, the intermediate loop runs,
and the highest dimension writes to `y`. -/
def kronmult_to_batch_sets (degree num_dims batch_offset : ℕ) :
    List assignEntry :=
  if num_dims = 1 then
    kron_base degree num_dims batch_offset opSrc.yOutput
  else
    kron_base degree num_dims batch_offset (opSrc.workView 0 0)
      ++ kron_mid degree num_dims batch_offset
      ++ kron_last degree num_dims batch_offset

/-- Descriptor of one `batch` object as constructed by `allocate_batches`
(tensors.hpp): slot count, operand shape, leading-dimension stride and
transpose flag. -/
structure batchDesc where
  num_entries : ℕ
  nrows : ℕ
  ncols : ℕ
  stride : ℕ
  do_trans : Bool
deriving DecidableEq

/-- Default `batchDesc` used with `List.getD`. -/
def batchDesc0 : batchDesc := ⟨0, 0, 0, 0, false⟩

/-- Translation of `allocate_batches` (tensors.hpp): the empty batches
allocated for a PDE, one triple (a, b, c) of batch lists per dimension.
`stride d` stands for `pde.get_coefficients(0, d).stride()`. -/
def allocate_batches (degree num_dims num_terms num_elems : ℕ)
    (stride : ℕ → ℕ) : List (List batchDesc) :=
  let sizes0 := compute_dimensions degree num_dims 0
  let num_gemms0 := num_terms * num_elems
  [⟨num_gemms0, sizes0.rows_a, sizes0.cols_a, stride 0, false⟩,
   ⟨num_gemms0, sizes0.rows_b, sizes0.cols_b, sizes0.rows_b, false⟩,
   ⟨num_gemms0, sizes0.rows_a, sizes0.cols_b, sizes0.rows_a, false⟩] ::
  (List.range (num_dims - 1)).map fun i0 =>
    let i := i0 + 1
    let num_gemms := compute_batch_size degree num_dims i * num_terms * num_elems
    let sizes := compute_dimensions degree num_dims i
    [⟨num_gemms, sizes.rows_a, sizes.cols_a, sizes.rows_a, false⟩,
     ⟨num_gemms, sizes.rows_b, sizes.cols_b, stride i, true⟩,
     ⟨num_gemms, sizes.rows_a, sizes.rows_b, sizes.rows_a, false⟩]

/-- Number of connected elements of one chunk row, whose connected range is
the pair `(start, stop)`: `stop - start + 1` as computed in `build_batches`. -/
def rowCount (r : ℕ × ℕ) : ℕ := r.2 - r.1 + 1

/-- Translation of the `prev_row_elems` lambda in `build_batches`
(tensors.hpp): total number of couplings contributed by the chunk rows
strictly before row position `p`. -/
def prev_row_elems : List (ℕ × ℕ) → ℕ → ℕ
  | _, 0 => 0
  | [], _ + 1 => 0
  | r :: rest, p + 1 => rowCount r + prev_row_elems rest p

/-- Translation of `total_prev_elems` in `build_batches`: number of (row,
column) couplings preceding the `jj`-th connected column of row position `p`
in row-major, then column order. -/
def total_prev_elems (chunk : List (ℕ × ℕ)) (p jj : ℕ) : ℕ :=
  prev_row_elems chunk p + jj

/-- Translation of `kron_index` in `build_batches`:
`k + total_prev_elems * num_terms` for term index `k`. -/
def kron_index (num_terms : ℕ) (chunk : List (ℕ × ℕ)) (p jj k : ℕ) : ℕ :=
  k + total_prev_elems chunk p jj * num_terms

/-- A (row position, connected offset, term) triple that the nested loops of
`build_batches` actually visit for a given chunk. -/
def validTriple (chunk : List (ℕ × ℕ)) (num_terms : ℕ) (t : ℕ × ℕ × ℕ) :
    Prop :=
  t.1 < chunk.length ∧ t.2.1 < rowCount (chunk.getD t.1 (0, 0)) ∧
    t.2.2 < num_terms

/-- The triples visited by the nested loops of `build_batches`, in loop
order: rows outermost, connected columns next, terms innermost. -/
def chunkTriples (chunk : List (ℕ × ℕ)) (num_terms : ℕ) :
    List (ℕ × ℕ × ℕ) :=
  (List.range chunk.length).flatMap fun p =>
    (List.range (rowCount (chunk.getD p (0, 0)))).flatMap fun jj =>
      (List.range num_terms).map fun k => (p, jj, k)

/-- Assignment trace of `build_batches` (tensors.hpp) over one chunk: for
each visited (row, connected, term) triple, in loop order, the
`kronmult_to_batch_sets` call made with `batch_offset = kron_index`. -/
def build_batches (degree num_dims num_terms : ℕ)
    (chunk : List (ℕ × ℕ)) : List assignEntry :=
  (chunkTriples chunk num_terms).flatMap fun t =>
    kronmult_to_batch_sets degree num_dims
      (kron_index num_terms chunk t.1 t.2.1 t.2.2)

/-- The identity of the batch slot an `assign_entry` call writes: which batch
set, which operand list within it, and which position. -/
def batchKey (e : assignEntry) : ℕ × ℕ × ℕ := (e.dim, e.operand, e.slot)

/-
Runtime batch container and `batched_gemm`, translated from the `batch`
class of tensors.hpp.  The pointer array `batch_` holds nullable raw
pointers; a pointer is modeled as an abstract value of type `γ` and a slot
as `Option γ`.  `num_entries` is the length of the slot array.
-/

/-- Model of a `batch<P>` object: shape metadata plus the slot array of
nullable operand pointers. -/
structure batchList (γ : Type) where
  nrows : ℕ
  ncols : ℕ
  stride : ℕ
  do_trans : Bool
  entries : List (Option γ)
deriving DecidableEq

/-- Number of pointer slots, `batch::num_entries()`. -/
def batchList.num_entries (b : batchList γ) : ℕ := b.entries.length

/-- One gemm issued by `batched_gemm`: the slot index and the three operand
pointers passed to `lib_dispatch::gemm`. -/
structure gemmCall (γ : Type) where
  idx : ℕ
  pa : γ
  pb : γ
  pc : γ
deriving DecidableEq

/-- Translation of `batched_gemm` (tensors.hpp).  The `assert`s at the top of
the function are modeled by returning `none` when violated; otherwise the
result is the list of gemms issued by the loop, which calls
`lib_dispatch::gemm` exactly for the slots `i` where `a(i) && b(i) && c(i)`
are all non-null. -/
def batched_gemm (a b c : batchList γ) : Option (List (gemmCall γ)) :=
  let cols_a := if a.do_trans then a.nrows else a.ncols
  let rows_a := if a.do_trans then a.ncols else a.nrows
  let rows_b := if b.do_trans then b.ncols else b.nrows
  let cols_b := if b.do_trans then b.nrows else b.ncols
  if a.num_entries = b.num_entries ∧ b.num_entries = c.num_entries ∧
      c.do_trans = false ∧ cols_a = rows_b ∧ c.nrows = rows_a ∧
      c.ncols = cols_b then
    some ((List.range a.num_entries).filterMap fun i =>
      match a.entries.getD i none, b.entries.getD i none,
          c.entries.getD i none with
      | some pa, some pb, some pc => some ⟨i, pa, pb, pc⟩
      | _, _, _ => none)
  else none

/-
Owning dense tensors, translated from `fk::matrix<P>` and `fk::vector<P>`
of tensors.hpp.  Storage is column-major with two-index access
`(i, j) -> data_[j * nrows + i]`; the embedding abstracts the flat buffer
behind that access function, since every operation modeled here reads and
writes elements only through `operator()`. -/

/-- Model of `fk::matrix<P>`: dimensions plus the element accessor
`operator()(i, j)`. -/
structure fkMatrix (α : Type) where
  nrows : ℕ
  ncols : ℕ
  entry : ℕ → ℕ → α

/-- Model of `fk::vector<P>`: size plus the element accessor
`operator()(i)`. -/
structure fkVector (α : Type) where
  size : ℕ
  entry : ℕ → α

/-- Translation of `fk::matrix::transpose` (tensors.hpp): builds
`temp(ncols, nrows)` with `temp(j, i) = (*this)(i, j)` and replaces the
matrix by it. -/
def fkMatrix.transpose (m : fkMatrix α) : fkMatrix α :=
  ⟨m.ncols, m.nrows, fun i j => m.entry j i⟩

/-- Translation of `fk::matrix::operator==` in its non-floating-point branch
(tensors.hpp): dimensions must match and every in-range entry pair must be
exactly equal. -/
def matrix_eq_exact [DecidableEq α] (m other : fkMatrix α) : Bool :=
  if m.nrows ≠ other.nrows ∨ m.ncols ≠ other.ncols then false
  else
    (List.range m.ncols).all fun j =>
      (List.range m.nrows).all fun i =>
        decide (m.entry i j = other.entry i j)

/-- Translation of `fk::matrix::operator==` in its floating-point branch
(tensors.hpp): dimensions must match, and an entry pair `(x, y)` fails the
comparison only when `|x| > TOL`, `|y| > TOL` and `|x - y| > TOL`, where
`TOL` is `2 * epsilon` in the source and is a parameter `tol` here. -/
def matrix_eq_fp [LinearOrderedField α] (tol : α) (m other : fkMatrix α) :
    Bool :=
  if m.nrows ≠ other.nrows ∨ m.ncols ≠ other.ncols then false
  else
    (List.range m.ncols).all fun j =>
      (List.range m.nrows).all fun i =>
        !(decide (tol < |m.entry i j|) && decide (tol < |other.entry i j|)
            && decide (tol < |m.entry i j - other.entry i j|))

/-- Translation of `fk::vector::operator==` in its floating-point branch
(tensors.hpp): sizes must match, and an entry pair `(x, y)` fails the
comparison only when `|x| > TOL`, `|y| > TOL` and `|x - y| > TOL`. -/
def vector_eq_fp [LinearOrderedField α] (tol : α) (v other : fkVector α) :
    Bool :=
  if v.size ≠ other.size then false
  else
    (List.range v.size).all fun i =>
      !(decide (tol < |v.entry i|) && decide (tol < |other.entry i|)
          && decide (tol < |v.entry i - other.entry i|))

/-
Legendre evaluation, translated from `legendre` in src/src/quadrature.cpp.
The source works on float/double and takes square roots; the two irrational
scale factors it computes - `dscale i = 1 / sqrt(2 / (2 i + 1))` from the
normalization loop and `sqrt(2.0)` from the final scaling - enter the
translation as parameters `dscale` and `sqrt2`, so every claim proved below
holds for any value the floating-point library returns for them. -/

/-- Translation of `fk::matrix::update_col` as used by `legendre`: overwrite
column `c` with the values `v i` (the vectors passed always have `nrows`
elements). -/
def fkMatrix.update_col (m : fkMatrix α) (c : ℕ) (v : ℕ → α) : fkMatrix α :=
  ⟨m.nrows, m.ncols, fun i j => if j = c then v i else m.entry i j⟩

/-- Translation of `fk::matrix::update_row` as used by `legendre`: overwrite
the first `len` entries of row `r` with the values `v j`. -/
def fkMatrix.update_row (m : fkMatrix α) (r len : ℕ) (v : ℕ → α) :
    fkMatrix α :=
  ⟨m.nrows, m.ncols, fun i j => if i = r ∧ j < len then v j else m.entry i j⟩

/-- Matrix-scalar product `m * s` as used by the final scaling step of
`legendre`. -/
def fkMatrix.scaleBy (m : fkMatrix α) [Mul α] (s : α) : fkMatrix α :=
  ⟨m.nrows, m.ncols, fun i j => m.entry i j * s⟩

/-- State threaded through the degree >= 3 recurrence loop of `legendre`:
the two matrices under construction and the four running columns
(`legendre_order`, `legendre_prime_order`, `legendre_n_1`,
`legendre_prime_n_1`). -/
structure legendreState (α : Type) where
  leg : fkMatrix α
  legp : fkMatrix α
  ord : ℕ → α
  ordp : ℕ → α
  n1 : ℕ → α
  n1p : ℕ → α

/-- Body of the recurrence loop of `legendre` (quadrature.cpp) for loop
index `i`: computes column `i + 2` of both matrices from the two previous
columns by the Legendre three-term recurrences and shifts the running
columns. -/
def legendreStep [Field α] (domain : List α) (st : legendreState α) (i : ℕ) :
    legendreState α :=
  let n : ℕ := i + 1
  let column_index := i + 2
  let factor : α := 1 / ((n : α) + 1)
  let legendre_col : ℕ → α := fun r =>
    (domain.getD r 0 * st.ord r * (2 * (n : α) + 1) - st.n1 r * (n : α))
      * factor
  let legendre_prime_col : ℕ → α := fun r =>
    ((domain.getD r 0 * st.ordp r + st.ord r) * (2 * (n : α) + 1)
        - st.n1p r * (n : α)) * factor
  ⟨st.leg.update_col column_index legendre_col,
   st.legp.update_col column_index legendre_prime_col,
   legendre_col, legendre_prime_col, st.ord, st.ordp⟩

/-- Translation of `legendre` (quadrature.cpp) up to but excluding the final
`sqrt(2)` scaling: allocate and fill the value and derivative matrices,
normalize each column by `dscale`, and zero every row whose domain point is
strictly outside `[-1, 1]`. -/
def legendre_prescale [LinearOrderedField α] (domain : List α) (degree : ℕ)
    (dscale : ℕ → α) : fkMatrix α × fkMatrix α :=
  let n := domain.length
  let leg0 : fkMatrix α := ⟨n, max 1 degree, fun _ _ => 0⟩
  let legp0 : fkMatrix α := ⟨n, max 1 degree, fun _ _ => 0⟩
  let leg1 := leg0.update_col 0 fun _ => 1
  let leg2 := if 2 ≤ degree then leg1.update_col 1 fun i => domain.getD i 0
    else leg1
  let legp2 := if 2 ≤ degree then legp0.update_col 1 fun _ => 1 else legp0
  let st3 :=
    if 3 ≤ degree then
      (List.range (degree - 2)).foldl (legendreStep domain)
        ⟨leg2, legp2, fun r => leg2.entry r 1, fun r => legp2.entry r 1,
         fun r => leg2.entry r 0, fun r => legp2.entry r 0⟩
    else ⟨leg2, legp2, fun _ => 0, fun _ => 0, fun _ => 0, fun _ => 0⟩
  let norm := (List.range degree).foldl
    (fun (mm : fkMatrix α × fkMatrix α) i =>
      (mm.1.update_col i fun r => mm.1.entry r i * dscale i,
       mm.2.update_col i fun r => mm.2.entry r i * dscale i))
    (st3.leg, st3.legp)
  let out_of_range := (List.range n).filter fun r =>
    decide (domain.getD r 0 < -1) || decide ((1 : α) < domain.getD r 0)
  out_of_range.foldl
    (fun (mm : fkMatrix α × fkMatrix α) r =>
      (mm.1.update_row r (max degree 1) fun _ => 0,
       mm.2.update_row r (max degree 1) fun _ => 0))
    norm

/-- Translation of `legendre` (quadrature.cpp): the prescale computation
followed by the final scaling of both matrices by `sqrt(2)` when
`degree > 0`. -/
def legendre [LinearOrderedField α] (domain : List α) (degree : ℕ)
    (dscale : ℕ → α) (sqrt2 : α) : fkMatrix α × fkMatrix α :=
  let pre := legendre_prescale domain degree dscale
  if 0 < degree then (pre.1.scaleBy sqrt2, pre.2.scaleBy sqrt2) else pre

/-
PDE factory, translated from `make_PDE` in src/src/pde.hpp. -/

/-- Translation of the `PDE_opts` enumeration (pde.hpp). -/
inductive PDE_opts where
  | continuity_1
  | continuity_2
  | continuity_3
  | continuity_6
  | fokkerplanck_1d_4p1a
  | fokkerplanck_1d_4p2
  | fokkerplanck_1d_4p3
  | fokkerplanck_1d_4p4
  | fokkerplanck_1d_4p5
  | fokkerplanck_2d_complete
  | impurity_3d_A
  | vlasov4
  | vlasov43
  | vlasov5
  | vlasov7
  | vlasov8
  | pde_user
deriving DecidableEq

/-- Which concrete PDE class `make_PDE` instantiates. -/
inductive madePDE where
  | continuity_1d
  | continuity_2d
  | continuity_3d
  | continuity_6d
  | fokkerplanck_1d_4p1a
  | fokkerplanck_1d_4p2
  | fokkerplanck_1d_4p3
  | fokkerplanck_1d_4p4
  | fokkerplanck_1d_4p5
  | fokkerplanck_2d_complete
  | impurity_3d_A
deriving DecidableEq

/-- Translation of the factory `make_PDE` (pde.hpp): which PDE implementation
class each choice constructs.  The `vlasov*` choices and `pde_user` fall
through to `PDE_continuity_1d`; every enumerator is handled, so the
`default: exit(-1)` branch is unreachable. -/
def make_PDE : PDE_opts → madePDE
  | PDE_opts.continuity_1 => madePDE.continuity_1d
  | PDE_opts.continuity_2 => madePDE.continuity_2d
  | PDE_opts.continuity_3 => madePDE.continuity_3d
  | PDE_opts.continuity_6 => madePDE.continuity_6d
  | PDE_opts.fokkerplanck_1d_4p1a => madePDE.fokkerplanck_1d_4p1a
  | PDE_opts.fokkerplanck_1d_4p2 => madePDE.fokkerplanck_1d_4p2
  | PDE_opts.fokkerplanck_1d_4p3 => madePDE.fokkerplanck_1d_4p3
  | PDE_opts.fokkerplanck_1d_4p4 => madePDE.fokkerplanck_1d_4p4
  | PDE_opts.fokkerplanck_1d_4p5 => madePDE.fokkerplanck_1d_4p5
  | PDE_opts.fokkerplanck_2d_complete => madePDE.fokkerplanck_2d_complete
  | PDE_opts.impurity_3d_A => madePDE.impurity_3d_A
  | PDE_opts.vlasov4 => madePDE.continuity_1d
  | PDE_opts.vlasov43 => madePDE.continuity_1d
  | PDE_opts.vlasov5 => madePDE.continuity_1d
  | PDE_opts.vlasov7 => madePDE.continuity_1d
  | PDE_opts.vlasov8 => madePDE.continuity_1d
  | PDE_opts.pde_user => madePDE.continuity_1d

/-
Theorems.
-/

/-- C4: for a 6-dimensional PDE at degree 4, one `kronmult_to_batch_sets`
call (one coupling, one term) enqueues 342 gemms in total: one for dimension
0, `4^4`, `4^3`, `4^2` and `4` for the intermediate dimensions 1..4 (matching
`compute_batch_size`), and one for dimension 5. -/
theorem kronmult_operand_count_d6 :
    ((kronmult_to_batch_sets 4 6 0).filter fun e => e.operand == 0).length
        = 342 ∧
    ((kronmult_to_batch_sets 4 6 0).filter fun e => e.operand == 1).length
        = 342 ∧
    ((kronmult_to_batch_sets 4 6 0).filter fun e => e.operand == 2).length
        = 342 ∧
    ((List.range 6).map fun d =>
        ((kronmult_to_batch_sets 4 6 0).filter fun e =>
          e.dim == d && e.operand == 0).length) = [1, 256, 64, 16, 4, 1] ∧
    ((List.range 6).map fun d => compute_batch_size 4 6 d)
        = [1, 256, 64, 16, 4, 1] ∧
    1 + 256 + 64 + 16 + 4 + 1 = 342 := by
  decide

/-- C5: for a one-dimensional PDE, `kronmult_to_batch_sets` enqueues exactly
one gemm per coupling - one slot in each of the three operand lists of the
single batch set, all at position `batch_offset` - whose output view aliases
the output vector `y` directly, and no assigned view points into a work
vector. -/
theorem kronmult_one_dim_single_gemm (degree batch_offset : ℕ) :
    kronmult_to_batch_sets degree 1 batch_offset =
      [⟨0, 0, batch_offset, opSrc.opView 0, degree, degree⟩,
       ⟨0, 1, batch_offset, opSrc.xInput, degree, 1⟩,
       ⟨0, 2, batch_offset, opSrc.yOutput, degree, 1⟩] ∧
    ∀ e ∈ kronmult_to_batch_sets degree 1 batch_offset,
      e.slot = batch_offset ∧ ∀ w off, e.src ≠ opSrc.workView w off := by
  have hbase : kronmult_to_batch_sets degree 1 batch_offset =
      [⟨0, 0, batch_offset, opSrc.opView 0, degree, degree⟩,
       ⟨0, 1, batch_offset, opSrc.xInput, degree, 1⟩,
       ⟨0, 2, batch_offset, opSrc.yOutput, degree, 1⟩] := by
    simp [kronmult_to_batch_sets, kron_base, compute_dimensions]
  refine ⟨hbase, ?_⟩
  intro e he
  rw [hbase] at he
  simp only [List.mem_cons, List.not_mem_nil, or_false] at he
  rcases he with rfl | rfl | rfl <;> simp

/-- C8: the factory `make_PDE` silently substitutes a `PDE_continuity_1d`
instance for every unimplemented `vlasov*` choice instead of failing with a
configuration error; this theorem evaluates the factory at those choices and
exhibits the substitution. -/
theorem make_PDE_vlasov_substitutes :
    make_PDE PDE_opts.vlasov4 = madePDE.continuity_1d ∧
    make_PDE PDE_opts.vlasov43 = madePDE.continuity_1d ∧
    make_PDE PDE_opts.vlasov5 = madePDE.continuity_1d ∧
    make_PDE PDE_opts.vlasov7 = madePDE.continuity_1d ∧
    make_PDE PDE_opts.vlasov8 = madePDE.continuity_1d := by
  decide

/-- C9: transposing a matrix twice returns a matrix with the original
dimensions whose entries compare equal to the original under `operator==`,
in both the exact branch and the floating-point tolerance branch. -/
theorem transpose_transpose_eq {α : Type} [LinearOrderedField α]
    [DecidableEq α] (m : fkMatrix α) (tol : α) (htol : 0 ≤ tol) :
    m.transpose.transpose.nrows = m.nrows ∧
    m.transpose.transpose.ncols = m.ncols ∧
    matrix_eq_exact m.transpose.transpose m = true ∧
    matrix_eq_fp tol m.transpose.transpose m = true := by
  refine ⟨rfl, rfl, ?_, ?_⟩
  · simp [matrix_eq_exact, fkMatrix.transpose]
  · have hnot : ¬ tol < 0 := not_lt.mpr htol
    simp [matrix_eq_fp, fkMatrix.transpose, sub_self, hnot]

/-- C9 witness: the double transpose of a concrete 2 x 3 rational matrix
compares equal to the original. -/
theorem transpose_transpose_eq_witness :
    (0 : ℚ) ≤ 1 ∧
    (((⟨2, 3, fun i j => (i : ℚ) + 2 * j⟩ : fkMatrix ℚ).transpose.transpose).nrows
        = 2 ∧
     ((⟨2, 3, fun i j => (i : ℚ) + 2 * j⟩ : fkMatrix ℚ).transpose.transpose).ncols
        = 3 ∧
     matrix_eq_exact
        ((⟨2, 3, fun i j => (i : ℚ) + 2 * j⟩ : fkMatrix ℚ).transpose.transpose)
        ⟨2, 3, fun i j => (i : ℚ) + 2 * j⟩ = true ∧
     matrix_eq_fp 1
        ((⟨2, 3, fun i j => (i : ℚ) + 2 * j⟩ : fkMatrix ℚ).transpose.transpose)
        ⟨2, 3, fun i j => (i : ℚ) + 2 * j⟩ = true) :=
  ⟨zero_le_one, transpose_transpose_eq ⟨2, 3, fun i j => (i : ℚ) + 2 * j⟩ 1
    zero_le_one⟩

/-- C10: the floating-point `operator==` of `fk::vector` and `fk::matrix`
only rejects an entry pair when both entries exceed the tolerance in
magnitude; two same-size containers therefore compare equal whenever at
every position at least one of the two entries has magnitude at most the
tolerance, and in particular a zero vector compares equal to every vector of
the same size. -/
theorem float_eq_tolerance_permissive {α : Type} [LinearOrderedField α]
    (tol : α) (v w : fkVector α) (m n : fkMatrix α) (htol : 0 ≤ tol)
    (hsz : v.size = w.size)
    (hvw : ∀ i, i < v.size → |v.entry i| ≤ tol ∨ |w.entry i| ≤ tol)
    (hr : m.nrows = n.nrows) (hc : m.ncols = n.ncols)
    (hmn : ∀ i j, i < m.nrows → j < m.ncols →
      |m.entry i j| ≤ tol ∨ |n.entry i j| ≤ tol) :
    vector_eq_fp tol v w = true ∧ matrix_eq_fp tol m n = true ∧
    ∀ z u : fkVector α, z.size = u.size → (∀ i, z.entry i = 0) →
      vector_eq_fp tol z u = true := by
  refine ⟨?_, ?_, ?_⟩
  · rw [vector_eq_fp, if_neg (by simp [hsz]), List.all_eq_true]
    intro i hi
    rw [List.mem_range] at hi
    rcases hvw i hi with h | h <;> simp [not_lt.mpr h]
  · rw [matrix_eq_fp, if_neg (by simp [hr, hc]), List.all_eq_true]
    intro j hj
    rw [List.mem_range] at hj
    rw [List.all_eq_true]
    intro i hi
    rw [List.mem_range] at hi
    rcases hmn i j hi hj with h | h <;> simp [not_lt.mpr h]
  · intro z u hzu hz
    rw [vector_eq_fp, if_neg (by simp [hzu]), List.all_eq_true]
    intro i hi
    simp [hz i, not_lt.mpr htol]

/-- C10 witness: a concrete rational instance - `(0, 0)` compares equal to
`(5, 7)` at tolerance 1 even though the entries differ wildly. -/
theorem float_eq_tolerance_permissive_witness :
    (0 : ℚ) ≤ 1 ∧
    (vector_eq_fp (1 : ℚ) ⟨2, fun _ => 0⟩ ⟨2, fun i => 5 + 2 * (i : ℚ)⟩
        = true ∧
     matrix_eq_fp (1 : ℚ) ⟨1, 1, fun _ _ => 0⟩ ⟨1, 1, fun _ _ => 9⟩ = true ∧
     ∀ z u : fkVector ℚ, z.size = u.size → (∀ i, z.entry i = 0) →
       vector_eq_fp (1 : ℚ) z u = true) := by
  refine ⟨zero_le_one, float_eq_tolerance_permissive 1 ⟨2, fun _ => 0⟩
    ⟨2, fun i => 5 + 2 * (i : ℚ)⟩ ⟨1, 1, fun _ _ => 0⟩ ⟨1, 1, fun _ _ => 9⟩
    zero_le_one rfl ?_ rfl rfl ?_⟩
  · intro i _
    left
    simp
  · intro i j _ _
    left
    simp

/-- Helper: mapping the slot index over the gemms issued by the dispatch
loop of `batched_gemm` yields exactly the slot indices at which all three
operand pointers are non-null. -/
theorem map_idx_filterMap_gemm {γ : Type} (a b c : batchList γ)
    (l : List ℕ) :
    ((l.filterMap fun i =>
      match a.entries.getD i none, b.entries.getD i none,
          c.entries.getD i none with
      | some pa, some pb, some pc =>
          some (⟨i, pa, pb, pc⟩ : gemmCall γ)
      | _, _, _ => none).map gemmCall.idx) =
    l.filter fun i =>
      (a.entries.getD i none).isSome && (b.entries.getD i none).isSome &&
      (c.entries.getD i none).isSome := by
  induction l with
  | nil => rfl
  | cons hd tl ih =>
    rw [List.filterMap_cons, List.filter_cons]
    rcases ha : a.entries.getD hd none with _ | pa <;>
      rcases hb : b.entries.getD hd none with _ | pb <;>
        rcases hc : c.entries.getD hd none with _ | pc <;>
          (simp only [List.getD_eq_getElem?_getD] at ih
           simp [ha, hb, hc, ih])

/-- C6: `batched_gemm` requires equal slot counts, a non-transposed `c`
batch and gemm-compatible post-transpose shapes (the asserts of the source);
under those preconditions it issues exactly one gemm for each slot index at
which all three operand pointers are non-null, and none for any slot with a
null pointer. -/
theorem batched_gemm_nonnull_slots {γ : Type} (a b c : batchList γ)
    (h1 : a.num_entries = b.num_entries)
    (h2 : b.num_entries = c.num_entries)
    (h3 : c.do_trans = false)
    (h4 : (if a.do_trans then a.nrows else a.ncols)
        = (if b.do_trans then b.ncols else b.nrows))
    (h5 : c.nrows = (if a.do_trans then a.ncols else a.nrows))
    (h6 : c.ncols = (if b.do_trans then b.nrows else b.ncols)) :
    ∃ issued, batched_gemm a b c = some issued ∧
      issued.map gemmCall.idx = (List.range a.num_entries).filter fun i =>
        (a.entries.getD i none).isSome && (b.entries.getD i none).isSome &&
        (c.entries.getD i none).isSome := by
  refine ⟨_, ?_, map_idx_filterMap_gemm a b c (List.range a.num_entries)⟩
  rw [batched_gemm, if_pos ⟨h1, h2, h3, h4, h5, h6⟩]

/-- C6 witness: concrete batches of two slots over pointer type ℕ, one slot
fully assigned and one with a null `b` pointer; exactly the fully assigned
slot is issued. -/
theorem batched_gemm_nonnull_slots_witness :
    ∃ issued,
      batched_gemm (⟨2, 3, 2, false, [some 10, some 11]⟩ : batchList ℕ)
          ⟨3, 4, 3, false, [some 20, none]⟩
          ⟨2, 4, 2, false, [some 30, some 31]⟩ = some issued ∧
      issued.map gemmCall.idx =
        (List.range
          (batchList.num_entries
            (⟨2, 3, 2, false, [some 10, some 11]⟩ : batchList ℕ))).filter
          fun i =>
            (([some 10, some 11] : List (Option ℕ)).getD i none).isSome &&
            (([some 20, none] : List (Option ℕ)).getD i none).isSome &&
            (([some 30, some 31] : List (Option ℕ)).getD i none).isSome :=
  batched_gemm_nonnull_slots ⟨2, 3, 2, false, [some 10, some 11]⟩
    ⟨3, 4, 3, false, [some 20, none]⟩ ⟨2, 4, 2, false, [some 30, some 31]⟩
    rfl rfl rfl rfl rfl rfl

/-- Helper: filtering distributes over `flatMap`. -/
theorem filter_flatMap_eq {α β : Type} (l : List α) (f : α → List β)
    (p : β → Bool) :
    (l.flatMap f).filter p = l.flatMap fun a => (f a).filter p := by
  induction l with
  | nil => rfl
  | cons hd tl ih => simp [List.flatMap_cons, List.filter_append, ih]

/-- Helper: a `flatMap` over a range whose function is empty everywhere but
at one index collapses to that index's list. -/
theorem flatMap_range_single {β : Type} (n i0 : ℕ) (f : ℕ → List β)
    (hi : i0 < n) (hz : ∀ i, i < n → i ≠ i0 → f i = []) :
    (List.range n).flatMap f = f i0 := by
  induction n with
  | zero => omega
  | succ n ih =>
    rw [List.range_succ, List.flatMap_append]
    have hsing : [n].flatMap f = f n := by simp
    rw [hsing]
    rcases Nat.lt_or_ge i0 n with h | h
    · rw [ih h fun i hi2 hne => hz i (by omega) hne,
        hz n (by omega) (by omega)]
      simp
    · have h0 : i0 = n := by omega
      subst h0
      have hnil : (List.range i0).flatMap f = [] := by
        apply List.flatMap_eq_nil_iff.mpr
        intro x hx
        rw [List.mem_range] at hx
        exact hz x (by omega) (by omega)
      rw [hnil]
      simp

/-- Helper: a `flatMap` producing singletons is a `map`. -/
theorem flatMap_singleton_eq_map {α β : Type} (l : List α) (f : α → β) :
    (l.flatMap fun x => [f x]) = l.map f := by
  induction l with
  | nil => rfl
  | cons hd tl ih => simp [List.flatMap_cons, ih]

/-- Helper: a `flatMap` whose function is empty on every element is empty. -/
theorem flatMap_eq_nil_of {α β : Type} (l : List α) (f : α → List β)
    (h : ∀ x ∈ l, f x = []) : l.flatMap f = [] :=
  List.flatMap_eq_nil_iff.mpr h

/-- Helper: `getD` on a mapped range evaluates the function at in-range
indices. -/
theorem getD_map_range {β : Type} (n i : ℕ) (f : ℕ → β) (d : β)
    (h : i < n) : ((List.range n).map f).getD i d = f i := by
  rw [List.getD_eq_getElem?_getD, List.getElem?_map, List.getElem?_range h]
  rfl

/-- Helper: the gemms `kronmult_to_batch_sets` enqueues at an intermediate
dimension `d`, projected to the input-operand list (operand 0): exactly one
slot per gemm index `g < compute_batch_size`, at position
`batch_offset * compute_batch_size + g`, a view into the work vector of
parity `(d - 1) % 2` with shape `rows_a x cols_a` from
`compute_dimensions`. -/
theorem kronmult_filter_mid_op0 (degree D B d : ℕ) (hd1 : 1 ≤ d)
    (hd2 : d ≤ D - 2) (hD : 3 ≤ D) :
    (kronmult_to_batch_sets degree D B).filter
        (fun e => decide (e.dim = d ∧ e.operand = 0)) =
      (List.range (compute_batch_size degree D d)).map fun g =>
        ⟨d, 0, B * compute_batch_size degree D d + g,
         opSrc.workView ((d - 1) % 2)
           ((compute_dimensions degree D d).rows_a *
             (compute_dimensions degree D d).cols_a * g),
         (compute_dimensions degree D d).rows_a,
         (compute_dimensions degree D d).cols_a⟩ := by
  have hD1 : D ≠ 1 := by omega
  rw [kronmult_to_batch_sets, if_neg hD1, List.filter_append,
    List.filter_append]
  have hbase : (kron_base degree D B (opSrc.workView 0 0)).filter
      (fun e => decide (e.dim = d ∧ e.operand = 0)) = [] := by
    simp [kron_base, List.filter, show (0 : ℕ) ≠ d by omega]
  have hlast : (kron_last degree D B).filter
      (fun e => decide (e.dim = d ∧ e.operand = 0)) = [] := by
    simp [kron_last, List.filter, show D - 1 ≠ d by omega]
  rw [hbase, hlast, List.append_nil, List.nil_append]
  rw [kron_mid]
  rw [filter_flatMap_eq]
  rw [flatMap_range_single (D - 2) (d - 1) _ (by omega) ?_]
  · have hd1e : d - 1 + 1 = d := by omega
    rw [hd1e]
    have hinner : ∀ g : ℕ,
        (kron_mid_entry degree D B d g).filter
          (fun e => decide (e.dim = d ∧ e.operand = 0)) =
        [⟨d, 0, B * compute_batch_size degree D d + g,
          opSrc.workView ((d - 1) % 2)
            ((compute_dimensions degree D d).rows_a *
              (compute_dimensions degree D d).cols_a * g),
          (compute_dimensions degree D d).rows_a,
          (compute_dimensions degree D d).cols_a⟩] := by
      intro g
      simp [kron_mid_entry, List.filter]
    rw [filter_flatMap_eq]
    simp only [hinner]
    exact flatMap_singleton_eq_map _ _
  · intro i hi hne
    rw [filter_flatMap_eq]
    apply flatMap_eq_nil_of
    intro g hg
    simp [kron_mid_entry, List.filter, show i + 1 ≠ d by omega]

/-- C2 counterexample: for degree 2, D = 3 and intermediate dimension d = 1,
the enqueued gemms exist (two of them) and every input operand has 2 rows,
whereas the claimed shape `(degree^(d+1), degree)` would require
`2 ^ (1 + 1) = 4` rows. -/
theorem kronmult_intermediate_shape_cex :
    ((kronmult_to_batch_sets 2 3 0).filter
        (fun e => decide (e.dim = 1 ∧ e.operand = 0))).length = 2 ∧
    (∀ e ∈ kronmult_to_batch_sets 2 3 0, e.dim = 1 → e.operand = 0 →
      e.nrows = 2) ∧
    (2 : ℕ) ≠ 2 ^ (1 + 1) := by
  decide

/-- C2 (amended): for every PDE with D >= 3 dimensions and every intermediate
dimension `d` in `1..D-2`, `kronmult_to_batch_sets` enqueues
`degree^(D-1-d)` gemms for that dimension, each of shape
`(degree^d, degree)` times the transpose of a `(degree, degree)` operator
(the `b` batch allocated for dimension `d` carries the transpose flag),
producing a `(degree^d, degree)` output. -/
theorem kronmult_intermediate_gemms (degree D B d T E : ℕ)
    (stride : ℕ → ℕ) (hd1 : 1 ≤ d) (hd2 : d ≤ D - 2) (hD : 3 ≤ D) :
    ((kronmult_to_batch_sets degree D B).filter
        (fun e => decide (e.dim = d ∧ e.operand = 0))).length
      = degree ^ (D - 1 - d) ∧
    (∀ e ∈ kronmult_to_batch_sets degree D B, e.dim = d →
      (e.operand = 0 → e.nrows = degree ^ d ∧ e.ncols = degree ∧
        ∃ w off, e.src = opSrc.workView w off) ∧
      (e.operand = 1 → e.nrows = degree ∧ e.ncols = degree ∧
        e.src = opSrc.opView d) ∧
      (e.operand = 2 → e.nrows = degree ^ d ∧ e.ncols = degree ∧
        ∃ w off, e.src = opSrc.workView w off)) ∧
    (((allocate_batches degree D T E stride).getD d []).getD 1
        batchDesc0).do_trans = true ∧
    (((allocate_batches degree D T E stride).getD d []).getD 1
        batchDesc0).nrows = degree ∧
    (((allocate_batches degree D T E stride).getD d []).getD 1
        batchDesc0).ncols = degree := by
  have hd0 : d ≠ 0 := by omega
  refine ⟨?_, ?_, ?_⟩
  · rw [kronmult_filter_mid_op0 degree D B d hd1 hd2 hD]
    rw [List.length_map, List.length_range]
    rw [compute_batch_size, if_neg (by omega),
      show D - d - 1 = D - 1 - d by omega]
  · intro e he hdim
    have hD1 : D ≠ 1 := by omega
    rw [kronmult_to_batch_sets, if_neg hD1] at he
    rw [List.mem_append, List.mem_append] at he
    rcases he with (he | he) | he
    · have h0 : e.dim = 0 := by
        simp only [kron_base, List.mem_cons, List.not_mem_nil, or_false] at he
        rcases he with h | h | h <;> (subst h; rfl)
      omega
    · rw [kron_mid] at he
      rw [List.mem_flatMap] at he
      obtain ⟨i, hi, he⟩ := he
      rw [List.mem_flatMap] at he
      obtain ⟨g, hg, he⟩ := he
      simp only [kron_mid_entry, List.mem_cons, List.not_mem_nil, or_false]
        at he
      have hieq : i + 1 = d := by
        rcases he with h | h | h <;> (subst h; exact hdim)
      rcases he with h | h | h <;> subst h <;>
        refine ⟨fun hop => ?_, fun hop => ?_, fun hop => ?_⟩ <;>
          (try simp at hop) <;> simp [compute_dimensions, hieq, hd0]
    · have h0 : e.dim = D - 1 := by
        simp only [kron_last, List.mem_cons, List.not_mem_nil, or_false] at he
        rcases he with h | h | h <;> (subst h; rfl)
      omega
  · obtain ⟨d0, rfl⟩ : ∃ d0, d = d0 + 1 := ⟨d - 1, by omega⟩
    have hd0lt : d0 < D - 1 := by omega
    simp only [allocate_batches, List.getD_cons_succ]
    rw [getD_map_range (D - 1) d0 _ _ hd0lt]
    simp [compute_dimensions]

/-- C2 witness: the amended intermediate-dimension property instantiated at
degree 2, D = 4, d = 1, one term, one element. -/
theorem kronmult_intermediate_gemms_witness :
    ((kronmult_to_batch_sets 2 4 0).filter
        (fun e => decide (e.dim = 1 ∧ e.operand = 0))).length
      = 2 ^ (4 - 1 - 1) ∧
    (∀ e ∈ kronmult_to_batch_sets 2 4 0, e.dim = 1 →
      (e.operand = 0 → e.nrows = 2 ^ 1 ∧ e.ncols = 2 ∧
        ∃ w off, e.src = opSrc.workView w off) ∧
      (e.operand = 1 → e.nrows = 2 ∧ e.ncols = 2 ∧
        e.src = opSrc.opView 1) ∧
      (e.operand = 2 → e.nrows = 2 ^ 1 ∧ e.ncols = 2 ∧
        ∃ w off, e.src = opSrc.workView w off)) ∧
    (((allocate_batches 2 4 1 1 fun _ => 8).getD 1 []).getD 1
        batchDesc0).do_trans = true ∧
    (((allocate_batches 2 4 1 1 fun _ => 8).getD 1 []).getD 1
        batchDesc0).nrows = 2 ∧
    (((allocate_batches 2 4 1 1 fun _ => 8).getD 1 []).getD 1
        batchDesc0).ncols = 2 :=
  kronmult_intermediate_gemms 2 4 0 1 1 1 (fun _ => 8) (by decide) (by decide)
    (by decide)

/-- C3 counterexample: for degree 2, D = 3, the input operand of the single
highest-dimension gemm is a view into `work[1]` (`work[D % 2]`), whereas the
claim dictates `work[(D - 1) % 2] = work[0]`. -/
theorem kronmult_last_input_cex :
    ((kronmult_to_batch_sets 2 3 0).filter
        (fun e => decide (e.dim = 2 ∧ e.operand = 0))).map assignEntry.src
      = [opSrc.workView 1 0] ∧
    (3 - 1) % 2 = 0 ∧
    opSrc.workView 1 0 ≠ opSrc.workView ((3 - 1) % 2) 0 := by
  decide

/-- C3 (amended): for every PDE with D >= 2 dimensions, the single gemm
enqueued for the highest dimension D-1 takes its input from
`work[D mod 2]` (the work vector the last intermediate dimension wrote, as
`D mod 2 = (D-2) mod 2`) and writes its output directly to the output
vector `y`. -/
theorem kronmult_last_dim_gemm (degree D B : ℕ) (hD : 2 ≤ D) :
    ((kronmult_to_batch_sets degree D B).filter
        (fun e => decide (e.dim = D - 1 ∧ e.operand = 0))).map
      assignEntry.src = [opSrc.workView (D % 2) 0] ∧
    ((kronmult_to_batch_sets degree D B).filter
        (fun e => decide (e.dim = D - 1 ∧ e.operand = 2))).map
      assignEntry.src = [opSrc.yOutput] ∧
    D % 2 = (D - 2) % 2 := by
  have hD1 : D ≠ 1 := by omega
  have hbase : ∀ o : ℕ, (kron_base degree D B (opSrc.workView 0 0)).filter
      (fun e => decide (e.dim = D - 1 ∧ e.operand = o)) = [] := by
    intro o
    simp [kron_base, List.filter, show (0 : ℕ) ≠ D - 1 by omega]
  have hmid : ∀ o : ℕ, (kron_mid degree D B).filter
      (fun e => decide (e.dim = D - 1 ∧ e.operand = o)) = [] := by
    intro o
    rw [kron_mid, filter_flatMap_eq]
    apply flatMap_eq_nil_of
    intro i hi
    rw [List.mem_range] at hi
    rw [filter_flatMap_eq]
    apply flatMap_eq_nil_of
    intro g _
    simp [kron_mid_entry, List.filter, show i + 1 ≠ D - 1 by omega]
  refine ⟨?_, ?_, by omega⟩ <;>
    rw [kronmult_to_batch_sets, if_neg hD1, List.filter_append,
      List.filter_append, hbase, hmid, List.nil_append, List.nil_append] <;>
      simp [kron_last, List.filter]

/-- C3 witness: the amended highest-dimension property instantiated at
degree 2, D = 4: the input comes from `work[0]` and the output goes to
`y`. -/
theorem kronmult_last_dim_gemm_witness :
    ((kronmult_to_batch_sets 2 4 0).filter
        (fun e => decide (e.dim = 4 - 1 ∧ e.operand = 0))).map
      assignEntry.src = [opSrc.workView (4 % 2) 0] ∧
    ((kronmult_to_batch_sets 2 4 0).filter
        (fun e => decide (e.dim = 4 - 1 ∧ e.operand = 2))).map
      assignEntry.src = [opSrc.yOutput] ∧
    4 % 2 = (4 - 2) % 2 :=
  kronmult_last_dim_gemm 2 4 0 (by decide)

/-- Helper: after the zero-out fold of `legendre`, every row listed in
`out_of_range` is zero in the first `len` columns of both matrices, and rows
already zero stay zero. -/
theorem fold_update_row_zero {α : Type} [LinearOrderedField α] (len : ℕ)
    (lst : List ℕ) (mm : fkMatrix α × fkMatrix α) (r c : ℕ) (hc : c < len)
    (h : r ∈ lst ∨ (mm.1.entry r c = 0 ∧ mm.2.entry r c = 0)) :
    (lst.foldl (fun mm r2 =>
        (mm.1.update_row r2 len fun _ => 0,
         mm.2.update_row r2 len fun _ => 0)) mm).1.entry r c = 0 ∧
    (lst.foldl (fun mm r2 =>
        (mm.1.update_row r2 len fun _ => 0,
         mm.2.update_row r2 len fun _ => 0)) mm).2.entry r c = 0 := by
  induction lst generalizing mm with
  | nil =>
    rcases h with h | h
    · simp at h
    · exact h
  | cons a tl ih =>
    rw [List.foldl_cons]
    apply ih
    rcases h with h | h
    · rw [List.mem_cons] at h
      rcases h with rfl | h
      · right
        constructor <;> simp [fkMatrix.update_row, hc]
      · left
        exact h
    · by_cases hra : r = a
      · subst hra
        right
        constructor <;> simp [fkMatrix.update_row, hc]
      · right
        constructor
        · simpa [fkMatrix.update_row, hra] using h.1
        · simpa [fkMatrix.update_row, hra] using h.2

/-- C7 counterexample: at degree 0 the final `sqrt(2)` scaling of `legendre`
is skipped (the source guards it with `degree > 0`), so an in-range row is
not scaled: on domain `[0]` with degree 0 the returned value entry is 1,
while scaling the prescale entry by a stand-in `sqrt2 = 3/2` would give
`3/2 != 1`. -/
theorem legendre_degree0_not_scaled_cex :
    (legendre [(0 : ℚ)] 0 (fun _ => 1) (3 / 2)).1.entry 0 0 = 1 ∧
    (legendre_prescale [(0 : ℚ)] 0 (fun _ => 1)).1.entry 0 0 * (3 / 2)
      = 3 / 2 ∧
    (1 : ℚ) ≠ 3 / 2 := by
  refine ⟨?_, ?_, by norm_num⟩ <;>
    norm_num [legendre, legendre_prescale, fkMatrix.update_col,
      fkMatrix.update_row, List.range_succ]

/-- C7 (amended): for every input domain vector, every degree >= 1 and any
values of the irrational scale factors, `legendre` returns matrices in which
every row corresponding to a domain point strictly outside `[-1, 1]` is
entirely zero, in both the polynomial-value matrix and the derivative
matrix, while every entry (in particular every in-range row) is the
corresponding prescale entry scaled by `sqrt2`.  (At degree 0 the source
skips the scaling, so the original unrestricted claim fails.) -/
theorem legendre_zero_outside_range {α : Type} [LinearOrderedField α]
    (domain : List α) (degree : ℕ) (dscale : ℕ → α) (sqrt2 : α)
    (hdeg : 1 ≤ degree) :
    (∀ r, r < domain.length →
      (domain.getD r 0 < -1 ∨ 1 < domain.getD r 0) →
      ∀ c, c < max 1 degree →
        (legendre domain degree dscale sqrt2).1.entry r c = 0 ∧
        (legendre domain degree dscale sqrt2).2.entry r c = 0) ∧
    (∀ r c,
      (legendre domain degree dscale sqrt2).1.entry r c
        = (legendre_prescale domain degree dscale).1.entry r c * sqrt2 ∧
      (legendre domain degree dscale sqrt2).2.entry r c
        = (legendre_prescale domain degree dscale).2.entry r c * sqrt2) := by
  have hpos : 0 < degree := hdeg
  have hscale : ∀ r c,
      (legendre domain degree dscale sqrt2).1.entry r c
        = (legendre_prescale domain degree dscale).1.entry r c * sqrt2 ∧
      (legendre domain degree dscale sqrt2).2.entry r c
        = (legendre_prescale domain degree dscale).2.entry r c * sqrt2 := by
    intro r c
    rw [legendre, if_pos hpos]
    exact ⟨rfl, rfl⟩
  refine ⟨?_, hscale⟩
  intro r hr hor c hc
  have hc2 : c < max degree 1 := by omega
  have hmem : r ∈ (List.range domain.length).filter fun r2 =>
      decide (domain.getD r2 0 < -1) || decide ((1 : α) < domain.getD r2 0) := by
    refine List.mem_filter.mpr ⟨List.mem_range.mpr hr, ?_⟩
    rcases hor with h | h <;>
      (simp only [List.getD_eq_getElem?_getD] at h; simp [h])
  have hzero :
      (legendre_prescale domain degree dscale).1.entry r c = 0 ∧
      (legendre_prescale domain degree dscale).2.entry r c = 0 := by
    rw [legendre_prescale]
    exact fold_update_row_zero (max degree 1) _ _ r c hc2 (Or.inl hmem)
  rw [(hscale r c).1, (hscale r c).2, hzero.1, hzero.2, zero_mul]
  exact ⟨rfl, rfl⟩

/-- C7 witness: the amended property instantiated at a concrete rational
domain `[-2, 0]` with degree 2: the out-of-range row 0 is zero in both
matrices and every entry is the prescale entry times the stand-in `sqrt2`
value. -/
theorem legendre_zero_outside_range_witness :
    (∀ r, r < ([-2, 0] : List ℚ).length →
      (([-2, 0] : List ℚ).getD r 0 < -1 ∨ 1 < ([-2, 0] : List ℚ).getD r 0) →
      ∀ c, c < max 1 2 →
        (legendre ([-2, 0] : List ℚ) 2 (fun _ => 1) (3 / 2)).1.entry r c = 0 ∧
        (legendre ([-2, 0] : List ℚ) 2 (fun _ => 1) (3 / 2)).2.entry r c
          = 0) ∧
    (∀ r c,
      (legendre ([-2, 0] : List ℚ) 2 (fun _ => 1) (3 / 2)).1.entry r c
        = (legendre_prescale ([-2, 0] : List ℚ) 2 (fun _ => 1)).1.entry r c
          * (3 / 2) ∧
      (legendre ([-2, 0] : List ℚ) 2 (fun _ => 1) (3 / 2)).2.entry r c
        = (legendre_prescale ([-2, 0] : List ℚ) 2 (fun _ => 1)).2.entry r c
          * (3 / 2)) :=
  legendre_zero_outside_range ([-2, 0] : List ℚ) 2 (fun _ => 1) (3 / 2)
    (by decide)

/-- Helper: the couplings of chunk row `p` end no later than any later row's
couplings start: `prev_row_elems p + rowCount p <= prev_row_elems p2` for
`p < p2`. -/
theorem prev_add_count_le (chunk : List (ℕ × ℕ)) :
    ∀ p p2 : ℕ, p < p2 → p < chunk.length →
      prev_row_elems chunk p + rowCount (chunk.getD p (0, 0))
        ≤ prev_row_elems chunk p2 := by
  induction chunk with
  | nil =>
    intro p p2 hpp hp
    simp at hp
  | cons r rest ih =>
    intro p p2 hpp hp
    match p, p2 with
    | 0, p2 + 1 =>
      simp only [prev_row_elems, List.getD_cons_zero, Nat.zero_add]
      exact Nat.le_add_right _ _
    | q + 1, q2 + 1 =>
      simp only [prev_row_elems, List.getD_cons_succ]
      have := ih q q2 (by omega) (by simpa using hp)
      omega

/-- Helper: the coupling rank `total_prev_elems` is injective over the (row
position, connected offset) pairs the `build_batches` loops visit. -/
theorem total_prev_inj (chunk : List (ℕ × ℕ)) (p jj p2 jj2 : ℕ)
    (hp : p < chunk.length) (hjj : jj < rowCount (chunk.getD p (0, 0)))
    (hp2 : p2 < chunk.length) (hjj2 : jj2 < rowCount (chunk.getD p2 (0, 0)))
    (he : total_prev_elems chunk p jj = total_prev_elems chunk p2 jj2) :
    p = p2 ∧ jj = jj2 := by
  rcases Nat.lt_trichotomy p p2 with h | h | h
  · exfalso
    have := prev_add_count_le chunk p p2 h hp
    rw [total_prev_elems, total_prev_elems] at he
    omega
  · subst h
    rw [total_prev_elems, total_prev_elems] at he
    omega
  · exfalso
    have := prev_add_count_le chunk p2 p h hp2
    rw [total_prev_elems, total_prev_elems] at he
    omega

/-- Helper: `kron_index` determines the term index and the coupling rank
uniquely (Euclidean division by `num_terms`). -/
theorem kron_index_inj (num_terms : ℕ) (chunk : List (ℕ × ℕ))
    (t1 t2 : ℕ × ℕ × ℕ) (h1 : validTriple chunk num_terms t1)
    (h2 : validTriple chunk num_terms t2)
    (he : kron_index num_terms chunk t1.1 t1.2.1 t1.2.2
      = kron_index num_terms chunk t2.1 t2.2.1 t2.2.2) : t1 = t2 := by
  obtain ⟨hp1, hjj1, hk1⟩ := h1
  obtain ⟨hp2, hjj2, hk2⟩ := h2
  rw [kron_index, kron_index] at he
  have hT : 0 < num_terms := by omega
  have hmod1 : (t1.2.2 + total_prev_elems chunk t1.1 t1.2.1 * num_terms)
      % num_terms = t1.2.2 := by
    simp [Nat.add_mul_mod_self_right, Nat.mod_eq_of_lt hk1]
  have hmod2 : (t2.2.2 + total_prev_elems chunk t2.1 t2.2.1 * num_terms)
      % num_terms = t2.2.2 := by
    simp [Nat.add_mul_mod_self_right, Nat.mod_eq_of_lt hk2]
  have hk : t1.2.2 = t2.2.2 := by rw [← hmod1, he, hmod2]
  have htot : total_prev_elems chunk t1.1 t1.2.1
      = total_prev_elems chunk t2.1 t2.2.1 := by
    apply Nat.eq_of_mul_eq_mul_right hT
    omega
  have hpj := total_prev_inj chunk t1.1 t1.2.1 t2.1 t2.2.1 hp1 hjj1 hp2 hjj2
    htot
  obtain ⟨q1, r1, k1⟩ := t1
  obtain ⟨q2, r2, k2⟩ := t2
  simp_all

/-- Helper: every slot assigned by one `kronmult_to_batch_sets` call at
`batch_offset = B` lies in the block
`[B * compute_batch_size, (B+1) * compute_batch_size)` of its batch. -/
theorem kronmult_slot_block (degree D B : ℕ) (e : assignEntry)
    (he : e ∈ kronmult_to_batch_sets degree D B) :
    B * compute_batch_size degree D e.dim ≤ e.slot ∧
    e.slot < (B + 1) * compute_batch_size degree D e.dim := by
  by_cases hD1 : D = 1
  · subst hD1
    rw [kronmult_to_batch_sets, if_pos rfl] at he
    have h0 : e.dim = 0 ∧ e.slot = B := by
      simp only [kron_base, List.mem_cons, List.not_mem_nil, or_false] at he
      rcases he with h | h | h <;> (subst h; exact ⟨rfl, rfl⟩)
    rw [h0.1, h0.2, compute_batch_size, if_pos (Or.inl rfl)]
    omega
  · rw [kronmult_to_batch_sets, if_neg hD1] at he
    rw [List.mem_append, List.mem_append] at he
    rcases he with (he | he) | he
    · have h0 : e.dim = 0 ∧ e.slot = B := by
        simp only [kron_base, List.mem_cons, List.not_mem_nil, or_false] at he
        rcases he with h | h | h <;> (subst h; exact ⟨rfl, rfl⟩)
      rw [h0.1, h0.2, compute_batch_size, if_pos (Or.inl rfl)]
      omega
    · rw [kron_mid] at he
      rw [List.mem_flatMap] at he
      obtain ⟨i, hi, he⟩ := he
      rw [List.mem_flatMap] at he
      obtain ⟨g, hg, he⟩ := he
      rw [List.mem_range] at hg
      have hkey : e.dim = i + 1 ∧
          e.slot = B * compute_batch_size degree D (i + 1) + g := by
        simp only [kron_mid_entry, List.mem_cons, List.not_mem_nil, or_false]
          at he
        rcases he with h | h | h <;> (subst h; exact ⟨rfl, rfl⟩)
      rw [hkey.1, hkey.2]
      have hmul : (B + 1) * compute_batch_size degree D (i + 1)
          = B * compute_batch_size degree D (i + 1)
            + compute_batch_size degree D (i + 1) := by ring
      omega
    · have h0 : e.dim = D - 1 ∧ e.slot = B := by
        simp only [kron_last, List.mem_cons, List.not_mem_nil, or_false] at he
        rcases he with h | h | h <;> (subst h; exact ⟨rfl, rfl⟩)
      rw [h0.1, h0.2, compute_batch_size, if_pos (Or.inr rfl)]
      omega

/-- Helper: the batch keys of one intermediate gemm share its dimension and
slot. -/
theorem mem_mid_entry_keys (degree D B dim g : ℕ) (k : ℕ × ℕ × ℕ)
    (hk : k ∈ (kron_mid_entry degree D B dim g).map batchKey) :
    k.1 = dim ∧ k.2.2 = B * compute_batch_size degree D dim + g := by
  simp only [kron_mid_entry, List.map_cons, List.map_nil, batchKey,
    List.mem_cons, List.not_mem_nil, or_false] at hk
  rcases hk with h | h | h <;> subst h <;> exact ⟨rfl, rfl⟩

/-- Helper: the batch keys of the dimension-0 gemm have dimension 0. -/
theorem mem_base_keys (degree D B : ℕ) (ytarget : opSrc) (k : ℕ × ℕ × ℕ)
    (hk : k ∈ (kron_base degree D B ytarget).map batchKey) : k.1 = 0 := by
  simp only [kron_base, List.map_cons, List.map_nil, batchKey,
    List.mem_cons, List.not_mem_nil, or_false] at hk
  rcases hk with h | h | h <;> subst h <;> rfl

/-- Helper: the batch keys of the highest-dimension gemm have dimension
`D - 1`. -/
theorem mem_last_keys (degree D B : ℕ) (k : ℕ × ℕ × ℕ)
    (hk : k ∈ (kron_last degree D B).map batchKey) : k.1 = D - 1 := by
  simp only [kron_last, List.map_cons, List.map_nil, batchKey,
    List.mem_cons, List.not_mem_nil, or_false] at hk
  rcases hk with h | h | h <;> subst h <;> rfl

/-- Helper: within one `kronmult_to_batch_sets` call, no two `assign_entry`
calls target the same (dimension, operand list, slot) key. -/
theorem kronmult_keys_nodup (degree D B : ℕ) (hD : 1 ≤ D) :
    ((kronmult_to_batch_sets degree D B).map batchKey).Nodup := by
  by_cases hD1 : D = 1
  · subst hD1
    rw [kronmult_to_batch_sets, if_pos rfl]
    simp [kron_base, batchKey]
  · rw [kronmult_to_batch_sets, if_neg hD1]
    rw [List.map_append, List.map_append, List.nodup_append]
    have hmidkeys : ∀ k : ℕ × ℕ × ℕ,
        k ∈ (kron_mid degree D B).map batchKey →
        ∃ i, i < D - 2 ∧ k.1 = i + 1 := by
      intro k hk
      rw [kron_mid] at hk
      simp only [List.map_flatMap] at hk
      rw [List.mem_flatMap] at hk
      obtain ⟨i, hi, hk⟩ := hk
      rw [List.mem_flatMap] at hk
      obtain ⟨g, hg, hk⟩ := hk
      rw [List.mem_range] at hi
      exact ⟨i, hi, (mem_mid_entry_keys degree D B (i + 1) g k hk).1⟩
    refine ⟨?_, ?_, ?_⟩
    · rw [List.nodup_append]
      refine ⟨by simp [kron_base, batchKey], ?_, ?_⟩
      · rw [kron_mid]
        simp only [List.map_flatMap]
        rw [List.nodup_flatMap]
        constructor
        · intro i _
          rw [List.nodup_flatMap]
          constructor
          · intro g _
            simp [kron_mid_entry, batchKey]
          · apply (List.pairwise_lt_range _).imp
            intro g g2 hgg k hk1 hk2
            have e1 := mem_mid_entry_keys degree D B (i + 1) g k hk1
            have e2 := mem_mid_entry_keys degree D B (i + 1) g2 k hk2
            have e3 : B * compute_batch_size degree D (i + 1) + g
                = B * compute_batch_size degree D (i + 1) + g2 := by
              rw [← e1.2, e2.2]
            exact absurd (Nat.add_left_cancel e3) (by omega)
        · apply (List.pairwise_lt_range _).imp
          intro i i2 hii k hk1 hk2
          rw [List.mem_flatMap] at hk1 hk2
          obtain ⟨g1, _, hk1⟩ := hk1
          obtain ⟨g2, _, hk2⟩ := hk2
          have e1 := (mem_mid_entry_keys degree D B (i + 1) g1 k hk1).1
          have e2 := (mem_mid_entry_keys degree D B (i2 + 1) g2 k hk2).1
          omega
      · intro k hk1 hk2
        have h1 := mem_base_keys degree D B (opSrc.workView 0 0) k hk1
        obtain ⟨i, _, h2⟩ := hmidkeys k hk2
        omega
    · simp [kron_last, batchKey]
    · intro k hk1 hk2
      have hlast := mem_last_keys degree D B k hk2
      rw [List.mem_append] at hk1
      rcases hk1 with hk1 | hk1
      · have h1 := mem_base_keys degree D B (opSrc.workView 0 0) k hk1
        omega
      · obtain ⟨i, hi, h2⟩ := hmidkeys k hk1
        omega

/-- Helper: membership in the loop-visited triple list is exactly
`validTriple`. -/
theorem mem_chunkTriples (chunk : List (ℕ × ℕ)) (num_terms : ℕ)
    (t : ℕ × ℕ × ℕ) :
    t ∈ chunkTriples chunk num_terms ↔ validTriple chunk num_terms t := by
  obtain ⟨p, jj, k⟩ := t
  simp only [chunkTriples, validTriple, List.mem_flatMap, List.mem_map,
    List.mem_range]
  constructor
  · rintro ⟨p2, hp2, jj2, hjj2, k2, hk2, heq⟩
    obtain ⟨rfl, rfl, rfl⟩ := Prod.mk.injEq .. |>.mp heq |>.imp id
      (fun h => Prod.mk.injEq .. |>.mp h)
    exact ⟨hp2, hjj2, hk2⟩
  · rintro ⟨hp, hjj, hk⟩
    exact ⟨p, hp, jj, hjj, k, hk, rfl⟩

/-- Helper: the loop-visited triple list has no duplicates. -/
theorem chunkTriples_nodup (chunk : List (ℕ × ℕ)) (num_terms : ℕ) :
    (chunkTriples chunk num_terms).Nodup := by
  rw [chunkTriples, List.nodup_flatMap]
  constructor
  · intro p _
    rw [List.nodup_flatMap]
    constructor
    · intro jj _
      refine List.Nodup.map ?_ (List.nodup_range _)
      intro a b hab
      simpa using hab
    · apply (List.pairwise_lt_range _).imp
      intro jj jj2 hjj k hk1 hk2
      rw [List.mem_map] at hk1 hk2
      obtain ⟨a, _, rfl⟩ := hk1
      obtain ⟨b, _, hb⟩ := hk2
      simp at hb
      omega
  · apply (List.pairwise_lt_range _).imp
    intro p p2 hpp k hk1 hk2
    rw [List.mem_flatMap] at hk1 hk2
    obtain ⟨jj1, _, hk1⟩ := hk1
    obtain ⟨jj2, _, hk2⟩ := hk2
    rw [List.mem_map] at hk1 hk2
    obtain ⟨a, _, rfl⟩ := hk1
    obtain ⟨b, _, hb⟩ := hk2
    simp at hb
    omega

/-- C1: over all (row element, connected element, term) triples of a chunk,
`kron_index = k + total_prev_couplings * num_terms` is injective, and
consequently no two `batch::assign_entry` calls made while building the
chunk's batches target the same slot of the same batch (same batch set,
operand list and position), so the write-once assertion in `assign_entry`
never fires. -/
theorem build_batches_slots_unique (degree num_dims num_terms : ℕ)
    (chunk : List (ℕ × ℕ)) (hD : 1 ≤ num_dims) (hT : 0 < num_terms) :
    (∀ t1 t2 : ℕ × ℕ × ℕ, validTriple chunk num_terms t1 →
      validTriple chunk num_terms t2 →
      kron_index num_terms chunk t1.1 t1.2.1 t1.2.2
        = kron_index num_terms chunk t2.1 t2.2.1 t2.2.2 → t1 = t2) ∧
    ((build_batches degree num_dims num_terms chunk).map batchKey).Nodup := by
  refine ⟨fun t1 t2 h1 h2 he =>
    kron_index_inj num_terms chunk t1 t2 h1 h2 he, ?_⟩
  rw [build_batches, List.map_flatMap, List.nodup_flatMap]
  constructor
  · intro t _
    exact kronmult_keys_nodup degree num_dims _ hD
  · apply (chunkTriples_nodup chunk num_terms).pairwise_of_forall_ne
    intro t1 ht1 t2 ht2 hne
    simp only [Function.onFun]
    intro k hk1 hk2
    rw [List.mem_map] at hk1 hk2
    obtain ⟨e1, he1, rfl⟩ := hk1
    obtain ⟨e2, he2, hk⟩ := hk2
    have hv1 := (mem_chunkTriples chunk num_terms t1).mp ht1
    have hv2 := (mem_chunkTriples chunk num_terms t2).mp ht2
    have hBne : kron_index num_terms chunk t1.1 t1.2.1 t1.2.2
        ≠ kron_index num_terms chunk t2.1 t2.2.1 t2.2.2 := fun h =>
      hne (kron_index_inj num_terms chunk t1 t2 hv1 hv2 h)
    have hb1 := kronmult_slot_block degree num_dims
      (kron_index num_terms chunk t1.1 t1.2.1 t1.2.2) e1 he1
    have hb2 := kronmult_slot_block degree num_dims
      (kron_index num_terms chunk t2.1 t2.2.1 t2.2.2) e2 he2
    rw [batchKey, batchKey] at hk
    obtain ⟨hdim, hop, hslot⟩ : e2.dim = e1.dim ∧ e2.operand = e1.operand ∧
        e2.slot = e1.slot := by simpa using hk
    rw [hdim, hslot] at hb2
    have hc : 0 < compute_batch_size degree num_dims e1.dim := by
      rcases Nat.eq_zero_or_pos (compute_batch_size degree num_dims e1.dim)
        with h0 | h0
      · exfalso
        rw [h0, Nat.mul_zero] at hb1
        omega
      · exact h0
    have d1 := Nat.div_eq_of_lt_le hb1.1 hb1.2
    have d2 := Nat.div_eq_of_lt_le hb2.1 hb2.2
    exact hBne (by omega)

/-- C1 witness: the uniqueness property instantiated at degree 2, two
dimensions, one term, and the concrete chunk with one row coupled to columns
0..1. -/
theorem build_batches_slots_unique_witness :
    (1 ≤ 2 ∧ 0 < 1) ∧
    ((∀ t1 t2 : ℕ × ℕ × ℕ, validTriple [(0, 1)] 1 t1 →
      validTriple [(0, 1)] 1 t2 →
      kron_index 1 [(0, 1)] t1.1 t1.2.1 t1.2.2
        = kron_index 1 [(0, 1)] t2.1 t2.2.1 t2.2.2 → t1 = t2) ∧
    ((build_batches 2 2 1 [(0, 1)]).map batchKey).Nodup) :=
  ⟨⟨by decide, by decide⟩,
    build_batches_slots_unique 2 2 1 [(0, 1)] (by decide) (by decide)⟩
